import Mathlib

/-!  Verification of the quantum split-step simulator core.

This file gives a shallow embedding, over the real and complex numbers,
of the numerical core of the repository: the recursive radix-2 FFT and
its inverse, the iterative in-place bit-reversal FFT, the wave-packet
initializer, the two potential builders, the split-step evolver and the
observables.  Arrays of JavaScript numbers are modelled as `List ℝ` /
`List ℂ` (a complex entry packs the parallel `psi_r[i]`, `psi_i[i]`
pair), in-place loops become index-parallel maps over `List.range`, and
a computation that throws becomes an `Option` returning `none`.
Floating-point arithmetic is idealised as exact real arithmetic.  -/

open Complex

noncomputable section

namespace QWS

/-- Rotation of a complex value, written exactly as the source computes
it componentwise: with `c = cos t`, `s = sin t`,
`re' = c * re - s * im` and `im' = s * re + c * im`. -/
def rot (t : ℝ) (z : ℂ) : ℂ :=
  ⟨Real.cos t * z.re - Real.sin t * z.im, Real.sin t * z.re + Real.cos t * z.im⟩

/-- The componentwise rotation of the source is multiplication by
`exp (t * I)`. -/
theorem rot_eq_exp_mul (t : ℝ) (z : ℂ) : rot t z = Complex.exp (t * Complex.I) * z := by
  apply Complex.ext <;>
    simp [rot, Complex.exp_mul_I, Complex.add_re, Complex.add_im, Complex.mul_re,
      Complex.mul_im, Complex.cos_ofReal_re, Complex.sin_ofReal_re] <;>
    try ring

theorem rot_zero (z : ℂ) : rot 0 z = z := by
  apply Complex.ext <;> simp [rot]

/-- Entry `k` of `(List.range n).map f`, the shape of every index loop
in the source. -/
theorem getD_range_map {α : Type} (f : ℕ → α) (d : α) {n k : ℕ} (hk : k < n) :
    ((List.range n).map f).getD k d = f k := by
  rw [List.getD_eq_getElem?_getD, List.getElem?_map, List.getElem?_range hk]
  rfl

theorem length_range_map {α : Type} (f : ℕ → α) (n : ℕ) :
    ((List.range n).map f).length = n := by simp

/-- Sum of a mapped range list as a `Finset` sum. -/
theorem sum_range_map (f : ℕ → ℝ) (n : ℕ) :
    (((List.range n).map f).sum) = ∑ i in Finset.range n, f i := by
  induction n with
  | zero => simp
  | succ n ih => rw [List.range_succ, List.map_append, List.sum_append,
      Finset.sum_range_succ, ih]; simp

theorem sum_range_map_c (f : ℕ → ℂ) (n : ℕ) :
    (((List.range n).map f).sum) = ∑ i in Finset.range n, f i := by
  induction n with
  | zero => simp
  | succ n ih => rw [List.range_succ, List.map_append, List.sum_append,
      Finset.sum_range_succ, ih]; simp

/-- Splitting a sum over `range (2*m)` into even and odd indices. -/
theorem sum_range_even_odd {M : Type} [AddCommMonoid M] (f : ℕ → M) (m : ℕ) :
    (∑ j in Finset.range (2 * m), f j) =
      (∑ j in Finset.range m, f (2 * j)) + ∑ j in Finset.range m, f (2 * j + 1) := by
  induction m with
  | zero => simp
  | succ m ih =>
      rw [show 2 * (m + 1) = 2 * m + 1 + 1 by ring, Finset.sum_range_succ,
        Finset.sum_range_succ, ih, Finset.sum_range_succ, Finset.sum_range_succ]
      abel

/-- The even-index subsequence `er[i] = re[2*i]` extracted by the
recursive FFT. -/
def evens : List ℂ → List ℂ
  | [] => []
  | [a] => [a]
  | a :: _ :: t => a :: evens t

/-- The odd-index subsequence `or[i] = re[2*i+1]` extracted by the
recursive FFT. -/
def odds : List ℂ → List ℂ
  | [] => []
  | [_] => []
  | _ :: b :: t => b :: odds t

theorem length_evens : ∀ l : List ℂ, (evens l).length = (l.length + 1) / 2
  | [] => by simp [evens]
  | [a] => by simp [evens]
  | a :: b :: t => by
      simp only [evens, List.length_cons, length_evens t]
      omega

theorem length_odds : ∀ l : List ℂ, (odds l).length = l.length / 2
  | [] => by simp [odds]
  | [a] => by simp [odds]
  | a :: b :: t => by
      simp only [odds, List.length_cons, length_odds t]
      omega

theorem evens_getD : ∀ (l : List ℂ) (j : ℕ) (d : ℂ), (evens l).getD j d = l.getD (2 * j) d
  | [], j, d => by simp [evens]
  | [a], j, d => by
      cases j with
      | zero => simp [evens]
      | succ j => simp [evens, Nat.mul_succ, List.getD]
  | a :: b :: t, 0, d => by simp [evens]
  | a :: b :: t, j + 1, d => by
      have ih := evens_getD t j d
      simp only [evens, Nat.mul_succ]
      rw [show 2 * j + 2 = (2 * j + 1) + 1 by ring]
      simpa [List.getD_cons_succ] using ih

theorem odds_getD : ∀ (l : List ℂ) (j : ℕ) (d : ℂ), (odds l).getD j d = l.getD (2 * j + 1) d
  | [], j, d => by simp [odds]
  | [a], j, d => by
      cases j with
      | zero => simp [odds, List.getD]
      | succ j => simp [odds, Nat.mul_succ, List.getD]
  | a :: b :: t, 0, d => by simp [odds]
  | a :: b :: t, j + 1, d => by
      have ih := odds_getD t j d
      simp only [odds, Nat.mul_succ]
      rw [show 2 * j + 1 + 2 = (2 * j + 1 + 1) + 1 by ring]
      simpa [List.getD_cons_succ] using ih

/-- The body of the combining loop of the recursive FFT: for
`k < n / 2` it writes `re[k] + tr`, `im[k] + ti` to position `k` and
`re[k] - tr`, `im[k] - ti` to position `k + n / 2`, where `(tr, ti)` is
the odd entry rotated by `t = -2 * π * k / n`. -/
def combine (e o : List ℂ) (n : ℕ) : List ℂ :=
  ((List.range (n / 2)).map fun k =>
    e.getD k 0 + rot (-2 * Real.pi * k / n) (o.getD k 0)) ++
  ((List.range (n / 2)).map fun k =>
    e.getD k 0 - rot (-2 * Real.pi * k / n) (o.getD k 0))

theorem length_combine (e o : List ℂ) (n : ℕ) :
    (combine e o n).length = n / 2 + n / 2 := by
  simp [combine]

/-- The recursive decimation-in-time FFT of the source (`fft(re, im)`),
acting on a list of complex entries.  For a length `n ≤ 1` it returns
its input; for an odd length `n > 1` the source's `new Array(n / 2)`
with a non-integer argument throws a `RangeError`, modelled here as
`none`; otherwise it splits into even- and odd-indexed subsequences,
recurses, and combines with the twiddle rotations. -/
def fftL (l : List ℂ) : Option (List ℂ) :=
  if l.length ≤ 1 then some l
  else if l.length % 2 = 1 then none
  else
    (fftL (evens l)).bind fun e =>
      (fftL (odds l)).bind fun o =>
        some (combine e o l.length)
termination_by l.length
decreasing_by
  · have := length_evens l
    omega
  · have := length_odds l
    omega

/-- The inverse FFT of the source (`ifft(re, im)`): negate the
imaginary parts, run the forward FFT, then divide the real parts by `n`
and negate-and-divide the imaginary parts, with `n` the array length. -/
def ifftL (l : List ℂ) : Option (List ℂ) :=
  (fftL (l.map fun z => ⟨z.re, -z.im⟩)).map fun r =>
    r.map fun z => ⟨z.re / r.length, -z.im / r.length⟩

/-- Whether a natural number is a power of two, by repeated halving. -/
def isPow2 (n : ℕ) : Bool :=
  if n = 0 then false
  else if n = 1 then true
  else if n % 2 = 1 then false
  else isPow2 (n / 2)
termination_by n
decreasing_by omega

theorem isPow2_iff : ∀ n : ℕ, isPow2 n = true ↔ ∃ k, n = 2 ^ k := by
  intro n
  induction n using Nat.strong_induction_on with
  | _ n ih =>
    rw [isPow2]
    split_ifs with h0 h1 hodd
    · subst h0
      simp only [Bool.false_eq_true, false_iff, not_exists]
      intro k h
      exact pow_ne_zero k (by norm_num : (2 : ℕ) ≠ 0) h.symm
    · subst h1
      exact ⟨fun _ => ⟨0, rfl⟩, fun _ => rfl⟩
    · simp only [Bool.false_eq_true, false_iff, not_exists]
      intro k h
      rcases k with _ | k
      · omega
      · rw [pow_succ] at h
        omega
    · rw [ih (n / 2) (by omega)]
      constructor
      · rintro ⟨k, hk⟩
        exact ⟨k + 1, by rw [pow_succ]; omega⟩
      · rintro ⟨k, hk⟩
        rcases k with _ | k
        · omega
        · exact ⟨k, by rw [pow_succ] at hk; omega⟩

/-- The simulation parameters of the source (`INITIAL_PARAMS` shape):
grid size `nx`, steps `dx`, `dt`, constants `hbar`, `m`, wave-packet
parameters `k0`, `x0`, `sigma`, and barrier parameters. -/
structure Params where
  nx : ℕ
  dx : ℝ
  dt : ℝ
  hbar : ℝ
  m : ℝ
  k0 : ℝ
  x0 : ℝ
  sigma : ℝ
  barrierHeight : ℝ
  barrierWidth : ℝ
  barrierPos : ℝ

/-- The mutable simulation state `{ psi_r, psi_i, V, time }` of the
source; a complex entry of `psi` packs the pair
`(psi_r[i], psi_i[i])`. -/
structure QState where
  psi : List ℂ
  V : List ℝ
  time : ℝ

/-- The fixed domain origin `xStart = -10` of the first source variant
(`initialize` in the recursive-FFT file). -/
def xStart : ℝ := -10

/-- The fixed domain origin `xStart = -25` of the second source variant
(`updatePotential` / `initialize` in the iterative-FFT file). -/
def xStart2 : ℝ := -25

/-- Barrier term of the potential: `barrierHeight` when
`barrierPos - barrierWidth / 2 < x < barrierPos + barrierWidth / 2`
(strict inequalities), else `0`. -/
def barrierTerm (p : Params) (x : ℝ) : ℝ :=
  if x > p.barrierPos - p.barrierWidth / 2 ∧ x < p.barrierPos + p.barrierWidth / 2 then
    p.barrierHeight
  else 0

/-- The potential array built inside `initialize` of the first source
variant: barrier term plus the absorbing boundary terms with
`w = 40`, `eta = 0.02`: for `i < w` add `-eta * (w - i)^2`, and for
`i > nx - w` (JavaScript integer arithmetic, hence the `ℤ` comparison)
add `-eta * (i - (nx - w))^2`. -/
def initV (p : Params) : List ℝ :=
  (List.range p.nx).map fun (i : ℕ) =>
    barrierTerm p (xStart + (i : ℝ) * p.dx) +
      (if i < 40 then -(0.02) * ((40 : ℝ) - (i : ℝ)) ^ 2 else 0) +
      (if (i : ℤ) > (p.nx : ℤ) - 40 then -(0.02) * ((i : ℝ) - ((p.nx : ℝ) - 40)) ^ 2 else 0)

/-- The unnormalized Gaussian wave packet of `initialize`:
`g = exp (-(x - x0)^2 / (2 * sigma^2))`, `psi_r = g * cos (k0 * x)`,
`psi_i = g * sin (k0 * x)` at `x = xStart + i * dx`. -/
def psi0 (p : Params) (i : ℕ) : ℂ :=
  ⟨Real.exp (-(xStart + (i : ℝ) * p.dx - p.x0) ^ 2 / (2 * p.sigma ^ 2)) *
      Real.cos (p.k0 * (xStart + (i : ℝ) * p.dx)),
    Real.exp (-(xStart + (i : ℝ) * p.dx - p.x0) ^ 2 / (2 * p.sigma ^ 2)) *
      Real.sin (p.k0 * (xStart + (i : ℝ) * p.dx))⟩

/-- The pre-normalization accumulator `norm_val` of `initialize`:
the sum of `psi_r[i]^2 + psi_i[i]^2` over the grid. -/
def sumSq (p : Params) : ℝ :=
  ∑ i in Finset.range p.nx, ((psi0 p i).re ^ 2 + (psi0 p i).im ^ 2)

/-- The normalization divisor `norm = sqrt (norm_val * dx)` of
`initialize`. -/
def normConst (p : Params) : ℝ :=
  Real.sqrt (sumSq p * p.dx)

/-- The `initialize` function of the first source variant: build the
Gaussian packet, divide every component by `norm`, build the potential,
and reset `time` to `0` (named `initialize` in the source, a reserved
word in Lean).  Note that the source has no degenerate-state check: the
division happens unconditionally. -/
def initState (p : Params) : QState :=
  { psi := (List.range p.nx).map fun (i : ℕ) =>
      ⟨(psi0 p i).re / normConst p, (psi0 p i).im / normConst p⟩
    V := initV p
    time := 0 }

/-- The half-step potential phase loop of `evolve`: each pair is
rotated by `ph = -V[i] * dt / (2 * hbar)`. -/
def potHalfStep (p : Params) (V : List ℝ) (l : List ℂ) : List ℂ :=
  (List.range p.nx).map fun i =>
    rot (-(V.getD i 0) * p.dt / (2 * p.hbar)) (l.getD i 0)

/-- The momentum-space wavenumber of `evolve`:
`k = 2π * i / (nx * dx)` for `i < nx / 2` and
`k = 2π * (i - nx) / (nx * dx)` for `i ≥ nx / 2`. -/
def kOf (p : Params) (i : ℕ) : ℝ :=
  if (i : ℝ) < (p.nx : ℝ) / 2 then 2 * Real.pi * i / (p.nx * p.dx)
  else 2 * Real.pi * ((i : ℝ) - p.nx) / (p.nx * p.dx)

/-- The kinetic full-step loop of `evolve`: each momentum-space pair is
rotated by `ph = -hbar * k^2 * dt / (2 * m)`. -/
def kineticStep (p : Params) (l : List ℂ) : List ℂ :=
  (List.range p.nx).map fun i =>
    rot (-p.hbar * kOf p i * kOf p i * p.dt / (2 * p.m)) (l.getD i 0)

/-- The `evolve` function of the first source variant: half potential
step, forward FFT, kinetic step, inverse FFT, half potential step, then
`time += dt`.  The FFT may throw (odd sub-length), so the result is an
`Option`. -/
def evolve (p : Params) (s : QState) : Option QState :=
  (fftL (potHalfStep p s.V s.psi)).bind fun a =>
    (ifftL (kineticStep p a)).bind fun b =>
      some { psi := potHalfStep p s.V b, V := s.V, time := s.time + p.dt }

/-- Iterating `evolve` for `n` steps. -/
def evolveN (p : Params) : ℕ → QState → Option QState
  | 0, s => some s
  | n + 1, s => (evolve p s).bind (evolveN p n)

/-- The `totalProbability` observable of the source: the sum of
`psi_r[i]^2 + psi_i[i]^2` over the stored wavefunction, times `dx`. -/
def totalProbability (dx : ℝ) (s : QState) : ℝ :=
  (s.psi.map fun z => z.re ^ 2 + z.im ^ 2).sum * dx

/-- The `updatePotential` builder of the second source variant:
rectangular barrier plus a constant `+100` added at the edge indices
`i < 20` or `i > nx - 20` (JavaScript integer arithmetic, hence the `ℤ`
comparison). -/
def updatePotential (p : Params) : List ℝ :=
  (List.range p.nx).map fun (i : ℕ) =>
    (if xStart2 + (i : ℝ) * p.dx > p.barrierPos - p.barrierWidth / 2 ∧
        xStart2 + (i : ℝ) * p.dx < p.barrierPos + p.barrierWidth / 2 then p.barrierHeight else 0) +
      (if i < 20 ∨ (i : ℤ) > (p.nx : ℤ) - 20 then (100 : ℝ) else 0)

/-- A barrier-only parameter update as performed by the source: rebuild
the potential and store it in the existing state, leaving `psi` and
`time` as they are (`stateRef.current.V = V`). -/
def applyBarrierUpdate (p : Params) (s : QState) : QState :=
  { s with V := updatePotential p }

/-- The forward primitive root `exp (-(2 * π / n) * I)`: the twiddle
factor base of the recursive FFT and of the spec's forward transform. -/
def wneg (n : ℕ) : ℂ :=
  Complex.exp (((-(2 * Real.pi / n) : ℝ) : ℂ) * Complex.I)

/-- The conjugate primitive root `exp ((2 * π / n) * I)`: the twiddle
factor base of the iterative FFT run with `inverse = false`. -/
def wpos (n : ℕ) : ℂ :=
  Complex.exp (((2 * Real.pi / n : ℝ) : ℂ) * Complex.I)

theorem exp_congr_real {s t : ℝ} (h : s = t) :
    Complex.exp ((s : ℂ) * Complex.I) = Complex.exp ((t : ℂ) * Complex.I) := by rw [h]

theorem exp_real_mul_I_pow (t : ℝ) (k : ℕ) :
    Complex.exp ((t : ℂ) * Complex.I) ^ k = Complex.exp (((k * t : ℝ) : ℂ) * Complex.I) := by
  rw [← Complex.exp_nat_mul]
  congr 1
  push_cast
  ring

theorem exp_real_two_pi_int (q : ℤ) :
    Complex.exp ((((q : ℝ) * (2 * Real.pi) : ℝ) : ℂ) * Complex.I) = 1 := by
  rw [show ((((q : ℝ) * (2 * Real.pi) : ℝ) : ℂ) * Complex.I) =
      (q : ℂ) * (2 * (Real.pi : ℂ) * Complex.I) by push_cast; ring]
  exact Complex.exp_int_mul_two_pi_mul_I q

theorem exp_real_neg_pi : Complex.exp (((-Real.pi : ℝ) : ℂ) * Complex.I) = -1 := by
  rw [show (((-Real.pi : ℝ) : ℂ) * Complex.I) = -((Real.pi : ℂ) * Complex.I) by push_cast; ring,
    Complex.exp_neg, Complex.exp_pi_mul_I]
  norm_num

theorem wneg_pow (n k : ℕ) :
    wneg n ^ k = Complex.exp (((-(2 * Real.pi * k / n) : ℝ) : ℂ) * Complex.I) := by
  rw [wneg, exp_real_mul_I_pow]
  exact exp_congr_real (by ring)

theorem wpos_pow (n k : ℕ) :
    wpos n ^ k = Complex.exp (((2 * Real.pi * k / n : ℝ) : ℂ) * Complex.I) := by
  rw [wpos, exp_real_mul_I_pow]
  exact exp_congr_real (by ring)

/-- The rotation by the source's twiddle angle `-2πk/n` is
multiplication by `wneg n ^ k`. -/
theorem rot_twiddle (n k : ℕ) (z : ℂ) :
    rot (-2 * Real.pi * k / n) z = wneg n ^ k * z := by
  rw [rot_eq_exp_mul, wneg_pow]
  congr 2
  push_cast
  ring

theorem conj_wneg (n : ℕ) : (starRingEnd ℂ) (wneg n) = wpos n := by
  rw [wneg, wpos, ← Complex.exp_conj]
  congr 1
  rw [map_mul, Complex.conj_I, Complex.conj_ofReal]
  push_cast
  ring

theorem wneg_one : wneg 1 = 1 := by
  rw [wneg, show (-(2 * Real.pi / (1 : ℕ)) : ℝ) = (-1 : ℤ) * (2 * Real.pi) by push_cast; ring]
  exact exp_real_two_pi_int (-1)

theorem wpos_one : wpos 1 = 1 := by
  rw [← conj_wneg, wneg_one, map_one]

theorem wneg_two_mul_sq {m : ℕ} (hm : m ≠ 0) : wneg (2 * m) ^ 2 = wneg m := by
  have hmR : (m : ℝ) ≠ 0 := Nat.cast_ne_zero.mpr hm
  rw [wneg_pow, wneg]
  refine exp_congr_real ?_
  push_cast
  field_simp
  ring

theorem wpos_two_mul_sq {m : ℕ} (hm : m ≠ 0) : wpos (2 * m) ^ 2 = wpos m := by
  have h := wneg_two_mul_sq hm
  rw [← conj_wneg, ← conj_wneg, ← map_pow, h]

theorem wneg_two_mul_pow_self {m : ℕ} (hm : m ≠ 0) : wneg (2 * m) ^ m = -1 := by
  have hmR : (m : ℝ) ≠ 0 := Nat.cast_ne_zero.mpr hm
  rw [wneg_pow, ← exp_real_neg_pi]
  refine exp_congr_real ?_
  push_cast
  field_simp
  ring

theorem wpos_two_mul_pow_self {m : ℕ} (hm : m ≠ 0) : wpos (2 * m) ^ m = -1 := by
  have h := wneg_two_mul_pow_self hm
  rw [← conj_wneg, ← map_pow, h]
  simp

theorem wneg_pow_self {n : ℕ} (hn : n ≠ 0) : wneg n ^ n = 1 := by
  have hnR : (n : ℝ) ≠ 0 := Nat.cast_ne_zero.mpr hn
  rw [wneg_pow, ← exp_real_two_pi_int (-1)]
  refine exp_congr_real ?_
  push_cast
  field_simp

theorem wpos_pow_self {n : ℕ} (hn : n ≠ 0) : wpos n ^ n = 1 := by
  have h := wneg_pow_self hn
  rw [← conj_wneg, ← map_pow, h, map_one]

theorem wneg_pow_ne_one {n j : ℕ} (h0 : 0 < j) (hj : j < n) : wneg n ^ j ≠ 1 := by
  rw [wneg_pow]
  intro h
  rcases Complex.exp_eq_one_iff.mp h with ⟨q, hq⟩
  have hnR : (0 : ℝ) < n := by
    have : 0 < n := lt_trans h0 hj
    exact_mod_cast this
  have hjR : (0 : ℝ) < j := by exact_mod_cast h0
  have hjn : (j : ℝ) < n := by exact_mod_cast hj
  have hpi := Real.pi_pos
  have him : (-(2 * Real.pi * j / n) : ℝ) = q * (2 * Real.pi) := by
    have h2 := congrArg Complex.im hq
    simpa [Complex.mul_im, Complex.mul_re] using h2
  have hq0 : (q : ℝ) < 0 := by
    by_contra hcon
    push_neg at hcon
    have h1 : (0 : ℝ) ≤ q * (2 * Real.pi) := by positivity
    have h2 : (0 : ℝ) < 2 * Real.pi * j / n := by positivity
    rw [← him] at h1
    linarith
  have hqm1 : (-1 : ℝ) < q := by
    by_contra hcon
    push_neg at hcon
    have h1 : q * (2 * Real.pi) ≤ (-1) * (2 * Real.pi) := by nlinarith
    have h2 : (2 * Real.pi * j / n) < 2 * Real.pi := by
      rw [div_lt_iff₀ hnR]
      nlinarith
    rw [← him] at h1
    linarith
  have hZ1 : (-1 : ℤ) < q := by exact_mod_cast hqm1
  have hZ2 : q < 0 := by exact_mod_cast hq0
  omega
/-- The discrete Fourier transform with the forward kernel
`e^(-2πi·jk/n)`, the mathematical transform the spec's FFT Engine
computes. -/
def dft (l : List ℂ) : List ℂ :=
  (List.range l.length).map fun k =>
    ∑ j in Finset.range l.length, l.getD j 0 * wneg l.length ^ (j * k)

theorem length_dft (l : List ℂ) : (dft l).length = l.length := by simp [dft]

theorem dft_getD (l : List ℂ) {k : ℕ} (hk : k < l.length) :
    (dft l).getD k 0 =
      ∑ j in Finset.range l.length, l.getD j 0 * wneg l.length ^ (j * k) := by
  rw [dft, getD_range_map _ _ hk]

theorem list_eq_of_getD {l1 l2 : List ℂ} (hlen : l1.length = l2.length)
    (h : ∀ i, i < l1.length → l1.getD i 0 = l2.getD i 0) : l1 = l2 := by
  apply List.ext_getElem hlen
  intro i h1 h2
  have hh := h i h1
  rwa [List.getD_eq_getElem?_getD, List.getD_eq_getElem?_getD,
    List.getElem?_eq_getElem h1, List.getElem?_eq_getElem h2] at hh

/-- One level of the decimation identity: combining the DFTs of the
even and odd subsequences with the twiddle rotations yields the DFT of
the whole list. -/
theorem combine_dft {l : List ℂ} {m : ℕ} (hm : m ≠ 0) (hl : l.length = 2 * m) :
    combine (dft (evens l)) (dft (odds l)) l.length = dft l := by
  have hle : (evens l).length = m := by rw [length_evens, hl]; omega
  have hlo : (odds l).length = m := by rw [length_odds, hl]; omega
  apply list_eq_of_getD
  · rw [length_combine, length_dft, hl]
    omega
  · intro i hi
    rw [length_combine, hl] at hi
    have hil : i < l.length := by rw [hl]; omega
    rw [dft_getD l hil, hl, sum_range_even_odd (fun j => l.getD j 0 * wneg (2 * m) ^ (j * i)) m]
    by_cases hi2 : i < m
    · rw [combine, List.getD_append _ _ _ _ (by rw [length_range_map]; omega),
        getD_range_map _ _ (by omega : i < 2 * m / 2), rot_twiddle,
        dft_getD (evens l) (by rw [hle]; omega),
        dft_getD (odds l) (by rw [hlo]; omega), hle, hlo]
      have he1 : (∑ j in Finset.range m, l.getD (2 * j) 0 * wneg (2 * m) ^ (2 * j * i)) =
          ∑ j in Finset.range m, (evens l).getD j 0 * wneg m ^ (j * i) := by
        apply Finset.sum_congr rfl
        intro j _
        rw [evens_getD]
        congr 1
        rw [show 2 * j * i = 2 * (j * i) by ring, pow_mul, wneg_two_mul_sq hm]
      have ho1 : (∑ j in Finset.range m, l.getD (2 * j + 1) 0 * wneg (2 * m) ^ ((2 * j + 1) * i)) =
          wneg (2 * m) ^ i * ∑ j in Finset.range m, (odds l).getD j 0 * wneg m ^ (j * i) := by
        rw [Finset.mul_sum]
        apply Finset.sum_congr rfl
        intro j _
        rw [odds_getD, show (2 * j + 1) * i = 2 * (j * i) + i by ring, pow_add, pow_mul,
          wneg_two_mul_sq hm]
        ring
      rw [he1, ho1]
    · obtain ⟨c, rfl⟩ : ∃ c, i = m + c := ⟨i - m, by omega⟩
      have hc : c < m := by omega
      rw [combine, List.getD_append_right _ _ _ _ (by rw [length_range_map]; omega),
        length_range_map, show m + c - 2 * m / 2 = c by omega,
        getD_range_map _ _ (by omega : c < 2 * m / 2), rot_twiddle,
        dft_getD (evens l) (by rw [hle]; omega),
        dft_getD (odds l) (by rw [hlo]; omega), hle, hlo]
      have he1 : (∑ j in Finset.range m, l.getD (2 * j) 0 * wneg (2 * m) ^ (2 * j * (m + c))) =
          ∑ j in Finset.range m, (evens l).getD j 0 * wneg m ^ (j * c) := by
        apply Finset.sum_congr rfl
        intro j _
        rw [evens_getD]
        congr 1
        rw [show 2 * j * (m + c) = 2 * (m * j + j * c) by ring, pow_mul, wneg_two_mul_sq hm,
          pow_add, pow_mul, wneg_pow_self hm, one_pow, one_mul]
      have ho1 : (∑ j in Finset.range m,
            l.getD (2 * j + 1) 0 * wneg (2 * m) ^ ((2 * j + 1) * (m + c))) =
          -(wneg (2 * m) ^ c * ∑ j in Finset.range m, (odds l).getD j 0 * wneg m ^ (j * c)) := by
        rw [Finset.mul_sum, ← Finset.sum_neg_distrib]
        apply Finset.sum_congr rfl
        intro j _
        rw [odds_getD, show (2 * j + 1) * (m + c) = 2 * (m * j + j * c) + (m + c) by ring,
          pow_add, pow_mul, wneg_two_mul_sq hm, pow_add, pow_mul, wneg_pow_self hm,
          one_pow, one_mul, pow_add, wneg_two_mul_pow_self hm]
        ring
      rw [he1, ho1]
      ring

/-- On a power-of-two length, the recursive FFT of the source computes
exactly the discrete Fourier transform. -/
theorem fftL_eq_dft : ∀ (k : ℕ) (l : List ℂ), l.length = 2 ^ k → fftL l = some (dft l)
  | 0, l, hl => by
      rw [fftL, if_pos (by rw [hl]; norm_num)]
      rcases l with _ | ⟨a, _ | ⟨b, t⟩⟩
      · simp at hl
      · simp [dft, Finset.sum_range_one]
      · simp at hl
  | (k + 1), l, hl => by
      have h2 : l.length = 2 * 2 ^ k := by rw [hl]; ring
      have hm : (2 : ℕ) ^ k ≠ 0 := pow_ne_zero k (by norm_num)
      have hle : (evens l).length = 2 ^ k := by rw [length_evens, h2]; omega
      have hlo : (odds l).length = 2 ^ k := by rw [length_odds, h2]; omega
      rw [fftL, if_neg (by rw [h2]; have := Nat.one_le_two_pow (n := k); omega),
        if_neg (by rw [h2]; omega)]
      rw [fftL_eq_dft k (evens l) hle, fftL_eq_dft k (odds l) hlo]
      simp only [Option.some_bind]
      rw [combine_dft hm h2]

/-- Conjugation as performed by `ifft`: the componentwise negation of
the imaginary part is complex conjugation. -/
theorem neg_im_eq_conj (z : ℂ) : (⟨z.re, -z.im⟩ : ℂ) = (starRingEnd ℂ) z := by
  apply Complex.ext <;> simp

/-- The final scaling of `ifft`, `re/n` and `-im/n`, is `conj z / n`. -/
theorem scale_eq_conj_div (z : ℂ) (n : ℕ) :
    (⟨z.re / n, -z.im / n⟩ : ℂ) = (starRingEnd ℂ) z / n := by
  rcases eq_or_ne (n : ℝ) 0 with h | h
  · rw [show ((n : ℂ)) = ((n : ℝ) : ℂ) by push_cast; rfl, h]
    apply Complex.ext <;> simp [h]
  · apply Complex.ext <;>
      · rw [show ((n : ℂ)) = ((n : ℝ) : ℂ) by push_cast; rfl]
        simp [Complex.div_ofReal_re, Complex.div_ofReal_im]

theorem getD_map_conj (y : List ℂ) (j : ℕ) :
    (y.map fun z => ((starRingEnd ℂ) z : ℂ)).getD j 0 = (starRingEnd ℂ) (y.getD j 0) := by
  rw [List.getD_eq_getElem?_getD, List.getD_eq_getElem?_getD, List.getElem?_map]
  rcases y[j]? with _ | a
  · simp
  · simp

theorem wpos_pow_ne_one {n j : ℕ} (h0 : 0 < j) (hj : j < n) : wpos n ^ j ≠ 1 := by
  rw [← conj_wneg, ← map_pow]
  intro h
  have h2 := congrArg (starRingEnd ℂ) h
  rw [Complex.conj_conj, map_one] at h2
  exact wneg_pow_ne_one h0 hj h2

theorem wneg_mul_wpos (n : ℕ) : wneg n * wpos n = 1 := by
  rw [wneg, wpos, ← Complex.exp_add,
    show ((-(2 * Real.pi / n) : ℝ) : ℂ) * Complex.I + ((2 * Real.pi / n : ℝ) : ℂ) * Complex.I
      = 0 by push_cast; ring]
  exact Complex.exp_zero

theorem geom_sum_root_zero {x : ℂ} {n : ℕ} (hx : x ≠ 1) (hxn : x ^ n = 1) :
    (∑ j in Finset.range n, x ^ j) = 0 := by
  rw [geom_sum_eq hx, hxn]
  simp

/-- Orthogonality of the discrete Fourier kernels. -/
theorem orth_sum {n t i : ℕ} (hn : n ≠ 0) (ht : t < n) (hi : i < n) :
    (∑ j in Finset.range n, wneg n ^ (t * j) * wpos n ^ (i * j)) =
      if t = i then (n : ℂ) else 0 := by
  by_cases h : t = i
  · subst h
    rw [if_pos rfl]
    have h1 : ∀ j : ℕ, wneg n ^ (t * j) * wpos n ^ (t * j) = 1 := fun j => by
      rw [← mul_pow, wneg_mul_wpos, one_pow]
    rw [Finset.sum_congr rfl fun j _ => h1 j]
    simp
  rw [if_neg h]
  rcases Nat.lt_or_ge t i with hlt | hge
  · have key : ∀ j : ℕ, wneg n ^ (t * j) * wpos n ^ (i * j) = (wpos n ^ (i - t)) ^ j := by
      intro j
      have e1 : wneg n ^ (t * j) * wpos n ^ (t * j) = 1 := by
        rw [← mul_pow, wneg_mul_wpos, one_pow]
      calc wneg n ^ (t * j) * wpos n ^ (i * j)
          = wneg n ^ (t * j) * wpos n ^ (t * j) * wpos n ^ ((i - t) * j) := by
            rw [show i * j = (i - t) * j + t * j by
              rw [← Nat.add_mul, Nat.sub_add_cancel (Nat.le_of_lt hlt)], pow_add]
            ring
        _ = (wpos n ^ (i - t)) ^ j := by rw [e1, one_mul, ← pow_mul]
    rw [Finset.sum_congr rfl fun j _ => key j]
    refine geom_sum_root_zero (wpos_pow_ne_one (by omega) (by omega)) ?_
    rw [← pow_mul, Nat.mul_comm, pow_mul, wpos_pow_self hn, one_pow]
  · have hgt : i < t := by omega
    have key : ∀ j : ℕ, wneg n ^ (t * j) * wpos n ^ (i * j) = (wneg n ^ (t - i)) ^ j := by
      intro j
      have e1 : wneg n ^ (i * j) * wpos n ^ (i * j) = 1 := by
        rw [← mul_pow, wneg_mul_wpos, one_pow]
      calc wneg n ^ (t * j) * wpos n ^ (i * j)
          = wneg n ^ (i * j) * wpos n ^ (i * j) * wneg n ^ ((t - i) * j) := by
            rw [show t * j = (t - i) * j + i * j by
              rw [← Nat.add_mul, Nat.sub_add_cancel (Nat.le_of_lt hgt)], pow_add]
            ring
        _ = (wneg n ^ (t - i)) ^ j := by rw [e1, one_mul, ← pow_mul]
    rw [Finset.sum_congr rfl fun j _ => key j]
    refine geom_sum_root_zero (wneg_pow_ne_one (by omega) (by omega)) ?_
    rw [← pow_mul, Nat.mul_comm, pow_mul, wneg_pow_self hn, one_pow]

/-- The core inversion computation: feeding the DFT into the source's
inverse transform pipeline returns the original entry. -/
theorem dft_inversion {l : List ℂ} (hn : l.length ≠ 0) {i : ℕ} (hi : i < l.length) :
    (starRingEnd ℂ) ((dft ((dft l).map fun z => (starRingEnd ℂ) z)).getD i 0) / l.length
      = l.getD i 0 := by
  set n := l.length with hnd
  have hlen : ((dft l).map fun z => ((starRingEnd ℂ) z : ℂ)).length = n := by
    simp [length_dft]
  have h1 : (dft ((dft l).map fun z => ((starRingEnd ℂ) z : ℂ))).getD i 0 =
      ∑ j in Finset.range n, (starRingEnd ℂ) ((dft l).getD j 0) * wneg n ^ (j * i) := by
    rw [dft_getD _ (by rw [hlen]; exact hi), hlen]
    exact Finset.sum_congr rfl fun j _ => by rw [getD_map_conj]
  rw [h1]
  rw [map_sum]
  have h2 : ∀ j, j ∈ Finset.range n →
      (starRingEnd ℂ) ((starRingEnd ℂ) ((dft l).getD j 0) * wneg n ^ (j * i)) =
        (∑ t in Finset.range n, l.getD t 0 * wneg n ^ (t * j)) * wpos n ^ (i * j) := by
    intro j hj
    rw [map_mul, Complex.conj_conj, map_pow, conj_wneg,
      dft_getD l (Finset.mem_range.mp hj), Nat.mul_comm i j]
  rw [Finset.sum_congr rfl h2]
  have h3 : (∑ j in Finset.range n,
        (∑ t in Finset.range n, l.getD t 0 * wneg n ^ (t * j)) * wpos n ^ (i * j)) =
      ∑ t in Finset.range n, l.getD t 0 *
        ∑ j in Finset.range n, wneg n ^ (t * j) * wpos n ^ (i * j) := by
    have e1 : ∀ j : ℕ,
        (∑ t in Finset.range n, l.getD t 0 * wneg n ^ (t * j)) * wpos n ^ (i * j) =
          ∑ t in Finset.range n, l.getD t 0 * (wneg n ^ (t * j) * wpos n ^ (i * j)) := by
      intro j
      rw [Finset.sum_mul]
      exact Finset.sum_congr rfl fun t _ => by ring
    rw [Finset.sum_congr rfl fun j _ => e1 j, Finset.sum_comm]
    exact Finset.sum_congr rfl fun t _ => by rw [Finset.mul_sum]
  rw [h3]
  have h4 : ∀ t, t ∈ Finset.range n →
      l.getD t 0 * (∑ j in Finset.range n, wneg n ^ (t * j) * wpos n ^ (i * j)) =
        if t = i then l.getD t 0 * n else 0 := by
    intro t htm
    rw [orth_sum hn (Finset.mem_range.mp htm) hi]
    by_cases h : t = i
    · rw [if_pos h, if_pos h]
    · rw [if_neg h, if_neg h, mul_zero]
  rw [Finset.sum_congr rfl h4, Finset.sum_ite_eq' (Finset.range n) i fun t => l.getD t 0 * n,
    if_pos (Finset.mem_range.mpr hi)]
  have hnC : (n : ℂ) ≠ 0 := Nat.cast_ne_zero.mpr hn
  field_simp

theorem getD_map_zero {f : ℂ → ℂ} (hf : f 0 = 0) (y : List ℂ) (j : ℕ) :
    (y.map f).getD j 0 = f (y.getD j 0) := by
  rw [List.getD_eq_getElem?_getD, List.getD_eq_getElem?_getD, List.getElem?_map]
  rcases y[j]? with _ | a
  · simp [hf]
  · simp

/-- Feeding the DFT of a power-of-two-length list into the source's
inverse FFT recovers the list. -/
theorem ifftL_dft {l : List ℂ} {k : ℕ} (hl : l.length = 2 ^ k) : ifftL (dft l) = some l := by
  have hn : l.length ≠ 0 := by
    rw [hl]
    exact pow_ne_zero k (by norm_num)
  rw [ifftL]
  have hmap : ((dft l).map fun z => (⟨z.re, -z.im⟩ : ℂ)) =
      (dft l).map fun z => (starRingEnd ℂ) z :=
    List.map_congr_left fun a _ => neg_im_eq_conj a
  have hlen2 : ((dft l).map fun z => ((starRingEnd ℂ) z : ℂ)).length = 2 ^ k := by
    rw [List.length_map, length_dft, hl]
  rw [hmap, fftL_eq_dft k _ hlen2]
  simp only [Option.map_some']
  congr 1
  set M := (dft l).map fun z => ((starRingEnd ℂ) z : ℂ) with hM
  have hlM : (dft M).length = l.length := by
    rw [length_dft, hM, List.length_map, length_dft]
  apply list_eq_of_getD
  · rw [List.length_map, hlM]
  · intro i hi
    rw [List.length_map, hlM] at hi
    rw [getD_map_zero (by apply Complex.ext <;> simp) _ i, hlM]
    rw [scale_eq_conj_div]
    exact dft_inversion hn hi

/-- Claim C2: for every power-of-two length and every pair of real and
imaginary arrays of that length, applying the forward transform and
then the inverse transform returns the original arrays, exactly in the
exact-arithmetic model: `inverseTransform (forwardTransform x) = x`. -/
theorem fft_roundtrip (k : ℕ) (l : List ℂ) (hl : l.length = 2 ^ k) :
    (fftL l).bind ifftL = some l := by
  rw [fftL_eq_dft k l hl, Option.some_bind, ifftL_dft hl]

/-- Witness for C2 at the concrete one-element array `[1]`. -/
theorem fft_roundtrip_witness :
    ([(1 : ℂ)].length = 2 ^ 0) ∧ (fftL [(1 : ℂ)]).bind ifftL = some [(1 : ℂ)] :=
  ⟨by simp, fft_roundtrip 0 [(1 : ℂ)] (by simp)⟩

/-- Claim C9: rebuilding the potential from changed barrier parameters
and storing it into an existing state leaves every element of the
wavefunction arrays and the time unchanged; only the potential field
differs afterwards. -/
theorem barrier_update_frame (p : Params) (s : QState) :
    (applyBarrierUpdate p s).psi = s.psi ∧ (applyBarrierUpdate p s).time = s.time ∧
      (applyBarrierUpdate p s).V = updatePotential p :=
  ⟨rfl, rfl, rfl⟩

/-- For a length greater than 1 that is not a power of two, repeated
halving reaches an odd sub-length greater than one, so the recursive
FFT propagates the thrown `RangeError` (`none`). -/
theorem fftL_none_aux :
    ∀ n : ℕ, ∀ l : List ℂ, l.length = n → 1 < n → isPow2 n = false → fftL l = none := by
  intro n
  induction n using Nat.strong_induction_on with
  | _ n ih =>
    intro l hl h1 h2
    rw [fftL, if_neg (by omega)]
    by_cases hodd : l.length % 2 = 1
    · rw [if_pos hodd]
    · rw [if_neg hodd]
      have hmod : n % 2 = 0 := by omega
      have hn2 : n ≠ 2 := by
        intro hn2
        have ht : isPow2 2 = true := (isPow2_iff 2).mpr ⟨1, by norm_num⟩
        rw [hn2, ht] at h2
        exact Bool.noConfusion h2
      have hhalf : 1 < n / 2 := by omega
      have hp : isPow2 (n / 2) = false := by
        rcases Bool.eq_false_or_eq_true (isPow2 (n / 2)) with hcon | hcon
        swap
        · exact hcon
        · rcases (isPow2_iff _).mp hcon with ⟨k, hk⟩
          have hnk : n = 2 ^ (k + 1) := by rw [pow_succ]; omega
          have ht : isPow2 n = true := (isPow2_iff n).mpr ⟨k + 1, hnk⟩
          rw [ht] at h2
          exact Bool.noConfusion h2
      have he : (evens l).length = n / 2 := by rw [length_evens, hl]; omega
      rw [ih (n / 2) (by omega) (evens l) he hhalf hp]
      rfl

/-- Claim C10: for every array length greater than one that is not a
power of two, the recursive fft does not return a silently wrong
result: after finitely many halvings it reaches an odd sub-length
greater than one and throws, surfacing as a runtime exception
(modelled as `none`). -/
theorem fft_throws_on_non_pow2 (l : List ℂ) (h1 : 1 < l.length)
    (h2 : isPow2 l.length = false) : fftL l = none :=
  fftL_none_aux l.length l rfl h1 h2

/-- Evaluation of the power-of-two test at 3. -/
theorem isPow2_three : isPow2 3 = false := by
  rw [isPow2]
  norm_num

/-- Witness for C10 at the concrete length-3 array `[1, 0, 0]`. -/
theorem fft_throws_on_non_pow2_witness :
    (1 < ([1, 0, 0] : List ℂ).length) ∧ isPow2 ([1, 0, 0] : List ℂ).length = false ∧
      fftL [1, 0, 0] = none :=
  ⟨by norm_num, by norm_num [isPow2_three],
    fft_throws_on_non_pow2 [1, 0, 0] (by norm_num) (by norm_num [isPow2_three])⟩

/-- A concrete parameter set with a non-power-of-two grid size. -/
def pNx3 : Params := ⟨3, 1, 1, 1, 1, 0, -10, 1, 0, 1, 0⟩

/-- A concrete parameter set with an empty grid, the degenerate case in
which the accumulated sum of squares is zero. -/
def pNx0 : Params := ⟨0, 1, 1, 1, 1, 0, 0, 1, 0, 1, 0⟩

/-- A concrete one-point parameter set whose packet is centred on its
single grid point. -/
def pNx1 : Params := ⟨1, 1, 1, 1, 1, 0, -10, 1, 0, 1, 0⟩

/-- A concrete parameter set exercising the second variant's potential
builder at the left edge. -/
def pEdge : Params := ⟨32, 1, 1, 1, 1, 0, 0, 1, 25, 3, 5⟩

/-- Claim C7 (behaviour of the code at the failing input): the core
performs no configuration-time validation of `nx`.  With `nx = 3`
(not a power of two) the initializer returns a fully-built state of
length 3 with no error, and the failure only surfaces when the evolver
runs its first FFT, which throws mid-step (modelled as `none`). -/
theorem no_validation_failing_input :
    (initState pNx3).psi.length = 3 ∧ evolve pNx3 (initState pNx3) = none := by
  constructor
  · rw [initState, length_range_map]
    rfl
  · rw [evolve]
    have hlen : (potHalfStep pNx3 (initState pNx3).V (initState pNx3).psi).length = 3 := by
      rw [potHalfStep, length_range_map]
      rfl
    rw [fftL_none_aux 3 _ hlen (by norm_num) isPow2_three]
    rfl

/-- Claim C8 (behaviour of the code): `initialize` has no
degenerate-state check.  At a parameter set whose pre-normalization sum
of squares is zero (here `nx = 0`, the empty grid), it still returns
normally — empty arrays and `time = 0` — rather than raising any
error; the division by the zero norm happens unconditionally. -/
theorem initState_no_degenerate_check :
    sumSq pNx0 = 0 ∧ initState pNx0 = ⟨[], [], 0⟩ := by
  have h0 : pNx0.nx = 0 := rfl
  constructor
  · rw [sumSq, h0]
    rfl
  · rw [initState, initV, h0]
    rfl

/-- Claim C4: for every parameter set whose pre-normalization sum of
squares is nonzero (and whose spatial step is positive), immediately
after initialize the total probability equals 1 exactly in exact
arithmetic, because every component is divided by
`norm = sqrt (sumSq * dx)`. -/
theorem initState_normalized (p : Params) (hs : sumSq p ≠ 0) (hdx : 0 < p.dx) :
    totalProbability p.dx (initState p) = 1 := by
  have hsq : 0 ≤ sumSq p := by
    apply Finset.sum_nonneg
    intro i _
    positivity
  have hspos : 0 < sumSq p := lt_of_le_of_ne hsq (Ne.symm hs)
  have hnorm : normConst p ^ 2 = sumSq p * p.dx := Real.sq_sqrt (by positivity)
  have hnne : normConst p ≠ 0 := by
    rw [normConst]
    exact Real.sqrt_ne_zero'.mpr (by positivity)
  rw [totalProbability, initState]
  rw [List.map_map, sum_range_map]
  have hsum : (∑ i in Finset.range p.nx,
      (((fun z : ℂ => z.re ^ 2 + z.im ^ 2) ∘ fun i : ℕ =>
        (⟨(psi0 p i).re / normConst p, (psi0 p i).im / normConst p⟩ : ℂ)) i)) =
      sumSq p / normConst p ^ 2 := by
    rw [sumSq, Finset.sum_div]
    apply Finset.sum_congr rfl
    intro i _
    show ((psi0 p i).re / normConst p) ^ 2 + ((psi0 p i).im / normConst p) ^ 2 =
      ((psi0 p i).re ^ 2 + (psi0 p i).im ^ 2) / normConst p ^ 2
    field_simp
  rw [hsum, hnorm]
  field_simp

/-- Witness for C4 at the concrete one-point parameter set: the packet
value at the single grid point is `exp 0 * cos 0 = 1`, so the
accumulated sum of squares is 1. -/
theorem initState_normalized_witness :
    sumSq pNx1 ≠ 0 ∧ (0 : ℝ) < pNx1.dx ∧
      totalProbability pNx1.dx (initState pNx1) = 1 := by
  have h1 : pNx1.nx = 1 := rfl
  have hs : sumSq pNx1 = 1 := by
    rw [sumSq, h1, Finset.sum_range_one, psi0]
    have hx : xStart + ((0 : ℕ) : ℝ) * pNx1.dx = -10 := by
      rw [xStart]
      norm_num
    rw [hx]
    have hc : pNx1.k0 * (-10) = 0 := by
      rw [show pNx1.k0 = 0 from rfl]
      ring
    have hg : -(-10 - pNx1.x0) ^ 2 / (2 * pNx1.sigma ^ 2) = 0 := by
      rw [show pNx1.x0 = -10 from rfl, show pNx1.sigma = 1 from rfl]
      norm_num
    rw [hc, hg]
    simp
  exact ⟨by rw [hs]; norm_num, by norm_num [pNx1],
    initState_normalized pNx1 (by rw [hs]; norm_num) (by norm_num [pNx1])⟩

/-- Claim C5 counterexample: the cited `updatePotential` builder adds a
constant `+100` wall at the edges, not a downward quadratic.  At index
0 of this parameter set the barrier term vanishes (the point `x = -25`
is outside the barrier), yet the built potential is `100 > 0`, whereas
the claim's decomposition forces a nonpositive value there. -/
theorem updatePotential_pos_edge :
    (updatePotential pEdge).getD 0 0 = 100 ∧ ¬(updatePotential pEdge).getD 0 0 ≤ 0 := by
  have h : (updatePotential pEdge).getD 0 0 = 100 := by
    rw [updatePotential, getD_range_map _ _ (by norm_num [pEdge])]
    norm_num [xStart2, pEdge]
  exact ⟨h, by rw [h]; norm_num⟩

/-- Claim C5 amended: the potential built at initialization time is the
sum of the barrier term (strict inequalities) and downward quadratic
absorbing terms with margin `w = 40` and `eta = 0.02`, the distance
measured to index 0 on the left and to index `nx` on the right; the
standalone `updatePotential` builder instead adds a constant `+100`
at the edge indices `i < 20` or `i > nx - 20` in place of the downward
quadratic. -/
theorem potential_decomposition (p : Params) (i : ℕ) (hi : i < p.nx) :
    (initV p).getD i 0 =
      barrierTerm p (xStart + (i : ℝ) * p.dx) +
        (if (i : ℝ) < 40 then -(0.02) * ((40 : ℝ) - (i : ℝ)) ^ 2 else 0) +
        (if (p.nx : ℝ) - (i : ℝ) < 40 then
          -(0.02) * ((40 : ℝ) - ((p.nx : ℝ) - (i : ℝ))) ^ 2 else 0) ∧
    (updatePotential p).getD i 0 =
      (if xStart2 + (i : ℝ) * p.dx > p.barrierPos - p.barrierWidth / 2 ∧
          xStart2 + (i : ℝ) * p.dx < p.barrierPos + p.barrierWidth / 2 then
        p.barrierHeight else 0) +
        (if i < 20 ∨ (i : ℤ) > (p.nx : ℤ) - 20 then (100 : ℝ) else 0) := by
  constructor
  · rw [initV, getD_range_map _ _ hi]
    have hleft : (i < 40) ↔ ((i : ℝ) < 40) := by
      constructor
      · intro h
        exact_mod_cast h
      · intro h
        exact_mod_cast h
    have hright : ((i : ℤ) > (p.nx : ℤ) - 40) ↔ ((p.nx : ℝ) - (i : ℝ) < 40) := by
      constructor
      · intro h
        have hR : ((p.nx : ℝ)) - 40 < (i : ℝ) := by exact_mod_cast h
        linarith
      · intro h
        have hZ : ((p.nx : ℤ)) - (i : ℤ) < 40 := by exact_mod_cast h
        omega
    have hbr : -(0.02) * ((i : ℝ) - ((p.nx : ℝ) - 40)) ^ 2 =
        -(0.02) * ((40 : ℝ) - ((p.nx : ℝ) - (i : ℝ))) ^ 2 := by
      ring
    rw [if_congr hleft rfl rfl, if_congr hright hbr rfl]
  · rw [updatePotential, getD_range_map _ _ hi]

/-- Witness for the amended C5 at the concrete parameter set of the
counterexample, index 0. -/
theorem potential_decomposition_witness :
    ((0 : ℕ) < pEdge.nx) ∧
      ((initV pEdge).getD 0 0 =
        barrierTerm pEdge (xStart + ((0 : ℕ) : ℝ) * pEdge.dx) +
          (if ((0 : ℕ) : ℝ) < 40 then -(0.02) * ((40 : ℝ) - ((0 : ℕ) : ℝ)) ^ 2 else 0) +
          (if (pEdge.nx : ℝ) - ((0 : ℕ) : ℝ) < 40 then
            -(0.02) * ((40 : ℝ) - ((pEdge.nx : ℝ) - ((0 : ℕ) : ℝ))) ^ 2 else 0) ∧
        (updatePotential pEdge).getD 0 0 =
          (if xStart2 + ((0 : ℕ) : ℝ) * pEdge.dx >
              pEdge.barrierPos - pEdge.barrierWidth / 2 ∧
              xStart2 + ((0 : ℕ) : ℝ) * pEdge.dx <
              pEdge.barrierPos + pEdge.barrierWidth / 2 then
            pEdge.barrierHeight else 0) +
            (if (0 : ℕ) < 20 ∨ ((0 : ℕ) : ℤ) > (pEdge.nx : ℤ) - 20 then (100 : ℝ) else 0)) :=
  ⟨by norm_num [pEdge], potential_decomposition pEdge 0 (by norm_num [pEdge])⟩

/-- The squared 2-norm of a complex list, indexed form. -/
def sumSqList (l : List ℂ) : ℝ :=
  ∑ i in Finset.range l.length, Complex.normSq (l.getD i 0)

theorem normSq_eq_re_im (z : ℂ) : Complex.normSq z = z.re ^ 2 + z.im ^ 2 := by
  rw [Complex.normSq_apply]
  ring

theorem map_sum_getD (f : ℂ → ℝ) :
    ∀ l : List ℂ, (l.map f).sum = ∑ i in Finset.range l.length, f (l.getD i 0)
  | [] => by simp
  | a :: t => by
      rw [List.map_cons, List.sum_cons, map_sum_getD f t, List.length_cons,
        Finset.sum_range_succ']
      simp [List.getD_cons_succ, List.getD_cons_zero]
      ring

/-- The observable of the source in terms of `sumSqList`. -/
theorem totalProbability_eq (dx : ℝ) (s : QState) :
    totalProbability dx s = sumSqList s.psi * dx := by
  rw [totalProbability, sumSqList, map_sum_getD]
  congr 1
  exact Finset.sum_congr rfl fun i _ => (normSq_eq_re_im _).symm

/-- The componentwise rotation does not change the squared modulus. -/
theorem normSq_rot (t : ℝ) (z : ℂ) : Complex.normSq (rot t z) = Complex.normSq z := by
  rw [rot_eq_exp_mul, Complex.normSq_mul,
    show ((t : ℂ) * Complex.I) = ((t : ℝ) : ℂ) * Complex.I from rfl]
  rw [← Complex.sq_abs (Complex.exp _), Complex.abs_exp_ofReal_mul_I]
  norm_num

/-- Parseval identity for the DFT: the squared norm is multiplied by
the length. -/
theorem dft_parseval (l : List ℂ) :
    sumSqList (dft l) = l.length * sumSqList l := by
  set n := l.length with hnd
  have key : (∑ k in Finset.range n, ((dft l).getD k 0 * (starRingEnd ℂ) ((dft l).getD k 0))) =
      (n : ℂ) * ∑ j in Finset.range n, (l.getD j 0 * (starRingEnd ℂ) (l.getD j 0)) := by
    have h1 : ∀ k ∈ Finset.range n,
        (dft l).getD k 0 * (starRingEnd ℂ) ((dft l).getD k 0) =
          ∑ t in Finset.range n, ∑ u in Finset.range n,
            l.getD t 0 * (starRingEnd ℂ) (l.getD u 0) * (wneg n ^ (t * k) * wpos n ^ (u * k)) := by
      intro k hk
      rw [dft_getD l (Finset.mem_range.mp hk), map_sum, Finset.sum_mul_sum]
      apply Finset.sum_congr rfl
      intro t _
      apply Finset.sum_congr rfl
      intro u _
      rw [map_mul, map_pow, conj_wneg]
      ring
    rw [Finset.sum_congr rfl h1, Finset.sum_comm]
    have h2 : ∀ t ∈ Finset.range n,
        (∑ k in Finset.range n, ∑ u in Finset.range n,
          l.getD t 0 * (starRingEnd ℂ) (l.getD u 0) * (wneg n ^ (t * k) * wpos n ^ (u * k))) =
        l.getD t 0 * (starRingEnd ℂ) (l.getD t 0) * n := by
      intro t htm
      rw [Finset.sum_comm]
      have h3 : ∀ u ∈ Finset.range n,
          (∑ k in Finset.range n,
            l.getD t 0 * (starRingEnd ℂ) (l.getD u 0) * (wneg n ^ (t * k) * wpos n ^ (u * k))) =
          if t = u then l.getD t 0 * (starRingEnd ℂ) (l.getD u 0) * n else 0 := by
        intro u hum
        rw [← Finset.mul_sum]
        by_cases hn0 : n = 0
        · rw [hn0] at htm
          exact absurd (Finset.mem_range.mp htm) (by omega)
        · rw [orth_sum hn0 (Finset.mem_range.mp htm) (Finset.mem_range.mp hum)]
          by_cases h : t = u
          · rw [if_pos h, if_pos h]
          · rw [if_neg h, if_neg h, mul_zero]
      rw [Finset.sum_congr rfl h3, Finset.sum_ite_eq (Finset.range n) t
        (fun u => l.getD t 0 * (starRingEnd ℂ) (l.getD u 0) * n), if_pos htm]
    rw [Finset.sum_congr rfl h2, ← Finset.sum_mul]
    ring
  have hL : (∑ k in Finset.range n, ((dft l).getD k 0 * (starRingEnd ℂ) ((dft l).getD k 0))) =
      ((sumSqList (dft l) : ℝ) : ℂ) := by
    rw [sumSqList, length_dft, Complex.ofReal_sum]
    exact Finset.sum_congr rfl fun k _ => (Complex.mul_conj _)
  have hR : (∑ j in Finset.range n, (l.getD j 0 * (starRingEnd ℂ) (l.getD j 0))) =
      ((sumSqList l : ℝ) : ℂ) := by
    rw [sumSqList, Complex.ofReal_sum]
    exact Finset.sum_congr rfl fun j _ => (Complex.mul_conj _)
  rw [hL, hR] at key
  have : ((sumSqList (dft l) : ℝ) : ℂ) = (((n : ℝ) * sumSqList l : ℝ) : ℂ) := by
    rw [key]
    push_cast
    ring
  exact_mod_cast this

theorem getD_replicate_zero (n i : ℕ) : (List.replicate n (0 : ℝ)).getD i 0 = 0 := by
  rw [List.getD_eq_getElem?_getD, List.getElem?_replicate]
  split_ifs <;> rfl

theorem range_map_getD_self {l : List ℂ} {n : ℕ} (hl : l.length = n) :
    ((List.range n).map fun i => l.getD i 0) = l := by
  apply list_eq_of_getD
  · rw [length_range_map, hl]
  · intro i hi
    rw [length_range_map] at hi
    rw [getD_range_map _ _ hi]

/-- With an everywhere-zero potential, the half-step potential rotation
of the evolver is the identity. -/
theorem potHalfStep_replicate_zero (p : Params) (l : List ℂ) (hl : l.length = p.nx) :
    potHalfStep p (List.replicate p.nx 0) l = l := by
  rw [potHalfStep]
  have h : ∀ i : ℕ, rot (-((List.replicate p.nx (0 : ℝ)).getD i 0) * p.dt / (2 * p.hbar))
      (l.getD i 0) = l.getD i 0 := by
    intro i
    rw [getD_replicate_zero, show -(0 : ℝ) * p.dt / (2 * p.hbar) = 0 by ring, rot_zero]
  rw [List.map_congr_left fun i _ => h i]
  exact range_map_getD_self hl

theorem length_kineticStep (p : Params) (l : List ℂ) :
    (kineticStep p l).length = p.nx := by
  rw [kineticStep, length_range_map]

/-- The kinetic phase rotation preserves the squared norm. -/
theorem sumSqList_kineticStep (p : Params) (l : List ℂ) (hl : l.length = p.nx) :
    sumSqList (kineticStep p l) = sumSqList l := by
  simp only [sumSqList, length_kineticStep, hl]
  apply Finset.sum_congr rfl
  intro i hi
  rw [kineticStep, getD_range_map _ _ (Finset.mem_range.mp hi), normSq_rot]

/-- On a power-of-two length the source's inverse FFT evaluates to the
conjugate-DFT pipeline. -/
theorem ifftL_eq {l : List ℂ} {k : ℕ} (hl : l.length = 2 ^ k) :
    ifftL l = some ((dft (l.map fun z => (starRingEnd ℂ) z)).map
      fun z => (starRingEnd ℂ) z / (l.length : ℂ)) := by
  rw [ifftL]
  have hmap : (l.map fun z => (⟨z.re, -z.im⟩ : ℂ)) = l.map fun z => (starRingEnd ℂ) z :=
    List.map_congr_left fun a _ => neg_im_eq_conj a
  have hlen : (dft (l.map fun z => ((starRingEnd ℂ) z : ℂ))).length = l.length := by
    rw [length_dft, List.length_map]
  rw [hmap, fftL_eq_dft k _ (by rw [List.length_map, hl])]
  simp only [Option.map_some']
  congr 1
  apply List.map_congr_left
  intro a _
  rw [scale_eq_conj_div, hlen]

theorem length_ifftL_eq {l : List ℂ} {k : ℕ} (hl : l.length = 2 ^ k) :
    ∀ r, ifftL l = some r → r.length = l.length := by
  intro r hr
  rw [ifftL_eq hl] at hr
  have := Option.some_injective _ hr
  rw [← this, List.length_map, length_dft, List.length_map]

/-- The inverse FFT divides the squared norm by the length. -/
theorem sumSqList_ifftL {l : List ℂ} {k : ℕ} (hl : l.length = 2 ^ k) :
    ∀ r, ifftL l = some r → sumSqList r = sumSqList l / l.length := by
  intro r hr
  rw [ifftL_eq hl] at hr
  have hrr := (Option.some_injective _ hr).symm
  subst hrr
  set M := l.map fun z => ((starRingEnd ℂ) z : ℂ) with hM
  have hMlen : M.length = l.length := List.length_map _ _
  have hMsum : sumSqList M = sumSqList l := by
    simp only [sumSqList, hMlen]
    apply Finset.sum_congr rfl
    intro i _
    rw [hM, getD_map_conj, Complex.normSq_conj]
  have hn0 : (l.length : ℝ) ≠ 0 := by
    rw [hl]
    positivity
  simp only [sumSqList, List.length_map, length_dft, hMlen]
  have hterm : ∀ i ∈ Finset.range l.length,
      Complex.normSq (((dft M).map fun z => (starRingEnd ℂ) z / (l.length : ℂ)).getD i 0) =
        Complex.normSq ((dft M).getD i 0) / (l.length : ℝ) ^ 2 := by
    intro i _
    rw [getD_map_zero (by simp) _ i, map_div₀, Complex.normSq_conj,
      show ((l.length : ℂ)) = (((l.length : ℝ) : ℝ) : ℂ) by push_cast; rfl,
      Complex.normSq_ofReal]
    ring
  rw [Finset.sum_congr rfl hterm, ← Finset.sum_div]
  have hpars : (∑ i in Finset.range l.length, Complex.normSq ((dft M).getD i 0)) =
      (l.length : ℝ) * sumSqList l := by
    have hp := dft_parseval M
    rw [hMsum, hMlen] at hp
    rw [← hp, sumSqList, length_dft, hMlen]
  rw [hpars, pow_two, mul_div_mul_left _ _ hn0, sumSqList]

/-- One zero-potential evolution step succeeds and preserves both the
wavefunction length and the squared norm. -/
theorem evolve_zero_step {p : Params} {s : QState} {k : ℕ}
    (hV : s.V = List.replicate p.nx 0) (hpsi : s.psi.length = p.nx) (hnx : p.nx = 2 ^ k) :
    ∃ s2, evolve p s = some s2 ∧ s2.V = s.V ∧ s2.psi.length = p.nx ∧
      sumSqList s2.psi = sumSqList s.psi := by
  have hnR : ((p.nx : ℝ)) ≠ 0 := by
    rw [hnx]
    positivity
  have h1 : potHalfStep p s.V s.psi = s.psi := by
    rw [hV]
    exact potHalfStep_replicate_zero p s.psi hpsi
  have hfft : fftL (potHalfStep p s.V s.psi) = some (dft s.psi) := by
    rw [h1]
    exact fftL_eq_dft k s.psi (by rw [hpsi, hnx])
  have hklen : (kineticStep p (dft s.psi)).length = 2 ^ k := by
    rw [length_kineticStep, hnx]
  obtain hif := ifftL_eq (l := kineticStep p (dft s.psi)) hklen
  have hrn : ((dft (List.map (fun z => (starRingEnd ℂ) z) (kineticStep p (dft s.psi)))).map
      fun z => (starRingEnd ℂ) z / ((kineticStep p (dft s.psi)).length : ℂ)).length = p.nx := by
    rw [List.length_map, length_dft, List.length_map, length_kineticStep]
  set r := ((dft (List.map (fun z => (starRingEnd ℂ) z) (kineticStep p (dft s.psi)))).map
      fun z => (starRingEnd ℂ) z / ((kineticStep p (dft s.psi)).length : ℂ)) with hrdef
  have hrsum : sumSqList r = sumSqList (kineticStep p (dft s.psi)) /
      ((kineticStep p (dft s.psi)).length : ℝ) :=
    sumSqList_ifftL hklen r hif
  refine ⟨⟨potHalfStep p s.V r, s.V, s.time + p.dt⟩, ?_, rfl, ?_, ?_⟩
  · rw [evolve, hfft, Option.some_bind, hif, Option.some_bind]
  · rw [hV, potHalfStep_replicate_zero p r hrn, hrn]
  · rw [hV, potHalfStep_replicate_zero p r hrn, hrsum,
      sumSqList_kineticStep p (dft s.psi) (by rw [length_dft, hpsi]),
      length_kineticStep, dft_parseval, hpsi, mul_comm, mul_div_cancel_right₀ _ hnR]

/-- Iterated zero-potential evolution succeeds and preserves the
squared norm. -/
theorem evolveN_zero {p : Params} {k : ℕ} (hnx : p.nx = 2 ^ k) :
    ∀ (N : ℕ) (s : QState), s.V = List.replicate p.nx 0 → s.psi.length = p.nx →
      ∃ s2, evolveN p N s = some s2 ∧ sumSqList s2.psi = sumSqList s.psi
  | 0, s, _, _ => ⟨s, rfl, rfl⟩
  | (N + 1), s, hV, hpsi => by
      obtain ⟨s1, h1, hV1, hlen1, hsum1⟩ := evolve_zero_step hV hpsi hnx
      obtain ⟨s2, h2, hsum2⟩ := evolveN_zero hnx N s1 (by rw [hV1, hV]) hlen1
      exact ⟨s2, by rw [evolveN, h1, Option.some_bind, h2], by rw [hsum2, hsum1]⟩

/-- Claim C6: when the potential array is zero at every index, every
evolver step preserves the total probability exactly in exact
arithmetic: the two half-step rotations are the identity, the kinetic
rotation is an isometry, and the forward and inverse FFTs scale the
squared norm by `n` and `1/n` respectively, so after any number of
steps `totalProbability` equals its initial value. -/
theorem evolve_preserves_norm (p : Params) (s : QState) (k N : ℕ)
    (hV : s.V = List.replicate p.nx 0) (hpsi : s.psi.length = p.nx) (hnx : p.nx = 2 ^ k) :
    (evolveN p N s).map (totalProbability p.dx) = some (totalProbability p.dx s) := by
  obtain ⟨s2, h2, hsum⟩ := evolveN_zero hnx N s hV hpsi
  rw [h2, Option.map_some', totalProbability_eq, totalProbability_eq, hsum]

/-- Witness for C6 at a one-point state evolved for one step. -/
theorem evolve_preserves_norm_witness :
    (QState.mk [1] [0] 0).V = List.replicate pNx1.nx 0 ∧
      (QState.mk [1] [0] 0).psi.length = pNx1.nx ∧ pNx1.nx = 2 ^ 0 ∧
      (evolveN pNx1 1 (QState.mk [1] [0] 0)).map (totalProbability pNx1.dx) =
        some (totalProbability pNx1.dx (QState.mk [1] [0] 0)) :=
  ⟨rfl, rfl, by norm_num [pNx1],
    evolve_preserves_norm pNx1 ⟨[1], [0], 0⟩ 0 1 rfl rfl (by norm_num [pNx1])⟩

/-- The inverse discrete Fourier transform: the spec's inverse
transform, with conjugated kernel and `1/n` scaling. -/
def idft (l : List ℂ) : List ℂ :=
  (List.range l.length).map fun k =>
    (∑ j in Finset.range l.length, l.getD j 0 * wpos l.length ^ (j * k)) / l.length

/-- On a power-of-two length the source's inverse FFT computes exactly
the inverse discrete Fourier transform. -/
theorem ifftL_eq_idft {l : List ℂ} {k : ℕ} (hl : l.length = 2 ^ k) :
    ifftL l = some (idft l) := by
  rw [ifftL_eq hl]
  congr 1
  have hMl : (l.map fun z => ((starRingEnd ℂ) z : ℂ)).length = l.length := List.length_map _ _
  apply list_eq_of_getD
  · rw [List.length_map, length_dft, hMl, idft, length_range_map]
  · intro i hi
    rw [List.length_map, length_dft, hMl] at hi
    rw [getD_map_zero (by simp) _ i, idft, getD_range_map _ _ hi,
      dft_getD _ (by rw [hMl]; exact hi), hMl, map_sum]
    congr 1
    apply Finset.sum_congr rfl
    intro j _
    rw [map_mul, getD_map_conj, Complex.conj_conj, map_pow, conj_wneg]

/-- The spec's rotation of a pair by an angle `ph`: multiplication of
the complex pair by `e^(i*ph)`. -/
def specRot (ph : ℝ) (z : ℂ) : ℂ :=
  Complex.exp (ph * Complex.I) * z

/-- The spec's half-step potential rotation: each pair is rotated by
`phase = -V[i]*dt/(2*hbar)`. -/
def specPotRot (p : Params) (V : List ℝ) (l : List ℂ) : List ℂ :=
  (List.range p.nx).map fun i =>
    specRot (-(V.getD i 0) * p.dt / (2 * p.hbar)) (l.getD i 0)

/-- The spec's full-step kinetic rotation in momentum space: each pair
is rotated by `phase = -hbar*k^2*dt/(2*m)` with the stated wavenumber
convention. -/
def specKinRot (p : Params) (l : List ℂ) : List ℂ :=
  (List.range p.nx).map fun i =>
    specRot (-p.hbar * kOf p i ^ 2 * p.dt / (2 * p.m)) (l.getD i 0)

/-- The Strang sequence exactly as the spec states it: half-step
potential rotation, forward Fourier transform, kinetic rotation,
inverse Fourier transform, a second identical half-step potential
rotation, and a time increment of exactly `dt`. -/
def specStrangStep (p : Params) (s : QState) : QState :=
  { psi := specPotRot p s.V (idft (specKinRot p (dft (specPotRot p s.V s.psi))))
    V := s.V
    time := s.time + p.dt }

/-- Claim C1: on a power-of-two grid, one call to the evolver
transforms the state exactly as the Strang sequence of the spec
prescribes, and increments `state.time` by exactly `dt`. -/
theorem evolve_eq_specStrangStep (p : Params) (s : QState) (k : ℕ)
    (hnx : p.nx = 2 ^ k) :
    evolve p s = some (specStrangStep p s) := by
  have hpot : ∀ (V : List ℝ) (l : List ℂ), potHalfStep p V l = specPotRot p V l := by
    intro V l
    rw [potHalfStep, specPotRot]
    exact List.map_congr_left fun i _ => rot_eq_exp_mul _ _
  have hkin : ∀ l : List ℂ, kineticStep p l = specKinRot p l := by
    intro l
    rw [kineticStep, specKinRot]
    apply List.map_congr_left
    intro i _
    rw [rot_eq_exp_mul, specRot,
      exp_congr_real (show -p.hbar * kOf p i * kOf p i * p.dt / (2 * p.m) =
        -p.hbar * kOf p i ^ 2 * p.dt / (2 * p.m) by ring)]
  have hlen1 : (potHalfStep p s.V s.psi).length = 2 ^ k := by
    rw [potHalfStep, length_range_map, hnx]
  have hklen : (kineticStep p (dft (potHalfStep p s.V s.psi))).length = 2 ^ k := by
    rw [length_kineticStep, hnx]
  rw [evolve, fftL_eq_dft k _ hlen1, Option.some_bind, ifftL_eq_idft hklen, Option.some_bind,
    specStrangStep]
  simp only [hpot, hkin]

/-- Witness for C1 at a one-point state. -/
theorem evolve_eq_specStrangStep_witness :
    pNx1.nx = 2 ^ 0 ∧
      evolve pNx1 ⟨[1], [0], 0⟩ = some (specStrangStep pNx1 ⟨[1], [0], 0⟩) :=
  ⟨by norm_num [pNx1],
    evolve_eq_specStrangStep pNx1 ⟨[1], [0], 0⟩ 0 (by norm_num [pNx1])⟩

/-- One run of the bit-reversal loop of the iterative FFT:
`rev = (rev << 1) | (k & 1)` then `k >>= 1`, repeated `bits` times,
starting from the accumulator `acc`. -/
def bitRevAux : ℕ → ℕ → ℕ → ℕ
  | 0, _, acc => acc
  | b + 1, k, acc => bitRevAux b (k / 2) (2 * acc + k % 2)

/-- The bit-reversal index of the iterative FFT. -/
def bitRev (bits k : ℕ) : ℕ :=
  bitRevAux bits k 0

theorem bitRevAux_acc : ∀ b k acc : ℕ, bitRevAux b k acc = acc * 2 ^ b + bitRevAux b k 0
  | 0, k, acc => by simp [bitRevAux]
  | b + 1, k, acc => by
      rw [bitRevAux, bitRevAux_acc b (k / 2) (2 * acc + k % 2), bitRevAux,
        bitRevAux_acc b (k / 2) (2 * 0 + k % 2), pow_succ]
      ring

theorem bitRev_two_mul (b k : ℕ) : bitRev (b + 1) (2 * k) = bitRev b k := by
  rw [bitRev, bitRevAux, show 2 * k / 2 = k by omega, show 2 * k % 2 = 0 by omega]
  rfl

theorem bitRev_two_mul_add_one (b k : ℕ) :
    bitRev (b + 1) (2 * k + 1) = bitRev b k + 2 ^ b := by
  rw [bitRev, bitRevAux, show (2 * k + 1) / 2 = k by omega,
    show (2 * k + 1) % 2 = 1 by omega, bitRevAux_acc b k (2 * 0 + 1), bitRev]
  omega

theorem bitRev_lt : ∀ b k : ℕ, k < 2 ^ b → bitRev b k < 2 ^ b
  | 0, k, hk => by
      have : k = 0 := by omega
      subst this
      norm_num [bitRev, bitRevAux]
  | b + 1, k, hk => by
      have h2 : (2 : ℕ) ^ (b + 1) = 2 * 2 ^ b := by ring
      rcases Nat.even_or_odd k with ⟨m, hm⟩ | ⟨m, hm⟩
      · rw [show k = 2 * m from by omega, bitRev_two_mul]
        have hmb : m < 2 ^ b := by omega
        have := bitRev_lt b m hmb
        omega
      · rw [hm, bitRev_two_mul_add_one]
        have hmb : m < 2 ^ b := by omega
        have := bitRev_lt b m hmb
        omega

theorem bitRev_double : ∀ b x : ℕ, x < 2 ^ b → bitRev (b + 1) x = 2 * bitRev b x
  | 0, x, hx => by
      have : x = 0 := by omega
      subst this
      norm_num [bitRev, bitRevAux]
  | b + 1, x, hx => by
      have h2 : (2 : ℕ) ^ (b + 2) = 2 * 2 ^ (b + 1) := by ring
      rcases Nat.even_or_odd x with ⟨m, hm⟩ | ⟨m, hm⟩
      · have hxm : x = 2 * m := by omega
        have hmb : m < 2 ^ b := by
          rw [hxm] at hx
          have : (2 : ℕ) ^ (b + 1) = 2 * 2 ^ b := by ring
          omega
        rw [hxm, bitRev_two_mul, bitRev_double b m hmb, bitRev_two_mul]
      · have hmb : m < 2 ^ b := by
          rw [hm] at hx
          have : (2 : ℕ) ^ (b + 1) = 2 * 2 ^ b := by ring
          omega
        rw [hm, bitRev_two_mul_add_one, bitRev_two_mul_add_one,
          bitRev_double b m hmb]
        ring

theorem bitRev_add_pow : ∀ b y : ℕ, y < 2 ^ b →
    bitRev (b + 1) (y + 2 ^ b) = 2 * bitRev b y + 1
  | 0, y, hy => by
      have : y = 0 := by omega
      subst this
      norm_num [bitRev, bitRevAux]
  | b + 1, y, hy => by
      have h2 : (2 : ℕ) ^ (b + 1) = 2 * 2 ^ b := by ring
      rcases Nat.even_or_odd y with ⟨m, hm⟩ | ⟨m, hm⟩
      · have hym : y = 2 * m := by omega
        have hmb : m < 2 ^ b := by omega
        rw [hym, show 2 * m + 2 ^ (b + 1) = 2 * (m + 2 ^ b) from by rw [h2]; ring,
          bitRev_two_mul, bitRev_add_pow b m hmb, bitRev_two_mul]
      · have hmb : m < 2 ^ b := by omega
        rw [hm, show 2 * m + 1 + 2 ^ (b + 1) = 2 * (m + 2 ^ b) + 1 from by rw [h2]; ring,
          bitRev_two_mul_add_one, bitRev_add_pow b m hmb, bitRev_two_mul_add_one]
        ring

/-- The bit-reversal index map is an involution on `[0, 2^b)`: this is
what makes the source's conditional-swap loop (`if (i < rev) swap`)
realize exactly the permutation `i ↦ bitRev b i`. -/
theorem bitRev_involution : ∀ b k : ℕ, k < 2 ^ b → bitRev b (bitRev b k) = k
  | 0, k, hk => by
      have : k = 0 := by omega
      subst this
      rfl
  | b + 1, k, hk => by
      have h2 : (2 : ℕ) ^ (b + 1) = 2 * 2 ^ b := by ring
      rcases Nat.even_or_odd k with ⟨m, hm⟩ | ⟨m, hm⟩
      · have hkm : k = 2 * m := by omega
        have hmb : m < 2 ^ b := by omega
        rw [hkm, bitRev_two_mul, bitRev_double b _ (bitRev_lt b m hmb),
          bitRev_involution b m hmb]
      · have hmb : m < 2 ^ b := by omega
        rw [hm, bitRev_two_mul_add_one, bitRev_add_pow b _ (bitRev_lt b m hmb),
          bitRev_involution b m hmb]

/-- The per-length twiddle base of the iterative FFT, exactly as the
source computes it: `(cos angle, sin angle)` with
`angle = (2π/len) * (inverse ? -1 : 1)`. -/
def wIter (inverse : Bool) (len : ℕ) : ℂ :=
  ⟨Real.cos (2 * Real.pi / len * (if inverse then -1 else 1)),
    Real.sin (2 * Real.pi / len * (if inverse then -1 else 1))⟩

theorem wIter_false (len : ℕ) : wIter false len = wpos len := by
  have h : wIter false len = rot (2 * Real.pi / len * (if false then -1 else 1)) 1 := by
    apply Complex.ext <;> simp [wIter, rot]
  rw [h, rot_eq_exp_mul, mul_one, wpos]
  exact exp_congr_real (by norm_num)

theorem wIter_true (len : ℕ) : wIter true len = wneg len := by
  have h : wIter true len = rot (2 * Real.pi / len * (if true then -1 else 1)) 1 := by
    apply Complex.ext <;> simp [wIter, rot]
  rw [h, rot_eq_exp_mul, mul_one, wneg]
  exact exp_congr_real (by norm_num)

/-- One butterfly pass of the iterative FFT with half-block size `half`
and twiddle base `w`: within each block of `2 * half` entries, the pair
`(u, v) = (a[i+j], w^j * a[i+j+half])` is written back as
`(u + v, u - v)`.  The source updates its running twiddle by one exact
complex multiplication per inner iteration, so at inner offset `j` that
running value is `w ^ j`. -/
def pass (half : ℕ) (w : ℂ) (a : ℕ → ℂ) : ℕ → ℂ := fun idx =>
  if idx % (2 * half) < half then a idx + w ^ (idx % (2 * half)) * a (idx + half)
  else a (idx - half) - w ^ (idx % (2 * half) - half) * a idx

/-- The butterfly passes `len = 2, 4, ..., 2^s` of the iterative FFT,
parameterized by the twiddle family `W`. -/
def passesW (W : ℕ → ℂ) : ℕ → (ℕ → ℂ) → (ℕ → ℂ)
  | 0, a => a
  | s + 1, a => pass (2 ^ s) (W (2 ^ (s + 1))) (passesW W s a)

/-- The iterative in-place FFT of the source on an array of length
`2^bits` (`bits = log2 n`): the conditional-swap loop realizes the
bit-reversal permutation — each pair `(i, rev i)` with `i < rev i` is
swapped exactly once and fixed points are untouched, since `bitRev
bits` is an involution on the index range (`bitRev_involution`) — then
`bits` butterfly passes run with twiddle bases
`wIter inverse len`, and the result is divided by `n` when `inverse`
is set. -/
def fftIter (bits : ℕ) (inverse : Bool) (a : ℕ → ℂ) : ℕ → ℂ := fun i =>
  if inverse then
    passesW (wIter inverse) bits (fun j => a (bitRev bits j)) i / (2 ^ bits : ℕ)
  else passesW (wIter inverse) bits (fun j => a (bitRev bits j)) i

/-- The central invariant of the iterative FFT: after `s` butterfly
passes over the bit-reversed input, position `b * 2^s + t` (block `b`,
offset `t`) holds entry `t` of the size-`2^s` transform with kernel
base `W` of the stride-`2^(kk-s)` subsequence of the input starting at
`bitRev (kk-s) b`. -/
theorem passesW_dft (W : ℕ → ℂ) (h1 : W 1 = 1)
    (h2 : ∀ m : ℕ, m ≠ 0 → W (2 * m) ^ 2 = W m)
    (hm : ∀ m : ℕ, m ≠ 0 → W (2 * m) ^ m = -1) (kk : ℕ) (a : ℕ → ℂ) :
    ∀ s : ℕ, s ≤ kk → ∀ b t : ℕ, b < 2 ^ (kk - s) → t < 2 ^ s →
      passesW W s (fun j => a (bitRev kk j)) (b * 2 ^ s + t) =
        ∑ j in Finset.range (2 ^ s),
          a (j * 2 ^ (kk - s) + bitRev (kk - s) b) * W (2 ^ s) ^ (j * t)
  | 0, hs, b, t, hb, ht => by
      have ht0 : t = 0 := by omega
      subst ht0
      rw [passesW]
      simp
  | (s + 1), hs, b, t, hb, ht => by
      have hss : s ≤ kk := by omega
      have h2s0 : (2 : ℕ) ^ s ≠ 0 := pow_ne_zero _ (by norm_num)
      have hWpow : W (2 ^ s) ^ (2 ^ s : ℕ) = 1 := by
        cases s with
        | zero => norm_num [h1]
        | succ s2 =>
            have hx := hm (2 ^ s2) (pow_ne_zero _ (by norm_num))
            rw [show (2 : ℕ) ^ (s2 + 1) = 2 * 2 ^ s2 by ring, pow_mul', hx]
            norm_num
      have hle : (2 : ℕ) ^ (s + 1) = 2 * 2 ^ s := by ring
      have hker2 : W (2 ^ (s + 1)) ^ 2 = W (2 ^ s) := by
        rw [hle]
        exact h2 _ h2s0
      have hkerm : W (2 ^ (s + 1)) ^ (2 ^ s : ℕ) = -1 := by
        rw [hle]
        exact hm _ h2s0
      have hkk1 : kk - s = (kk - (s + 1)) + 1 := by omega
      have hbound : 2 * b + 1 < 2 ^ (kk - s) := by
        rw [hkk1, pow_succ]
        omega
      have hb0 : 2 * b < 2 ^ (kk - s) := by omega
      have hbr0 : bitRev (kk - s) (2 * b) = bitRev (kk - (s + 1)) b := by
        rw [hkk1]
        exact bitRev_two_mul _ b
      have hbr1 : bitRev (kk - s) (2 * b + 1) =
          bitRev (kk - (s + 1)) b + 2 ^ (kk - (s + 1)) := by
        rw [hkk1]
        exact bitRev_two_mul_add_one _ b
      rw [passesW]
      simp only [pass]
      have hmod : (b * 2 ^ (s + 1) + t) % 2 ^ (s + 1) = t := by
        rw [show b * 2 ^ (s + 1) + t = 2 ^ (s + 1) * b + t by ring, Nat.mul_add_mod,
          Nat.mod_eq_of_lt ht]
      rw [show 2 * 2 ^ s = 2 ^ (s + 1) from hle.symm, hmod]
      by_cases hts : t < 2 ^ s
      · rw [if_pos hts,
          show b * 2 ^ (s + 1) + t = 2 * b * 2 ^ s + t from by rw [pow_succ]; ring,
          show 2 * b * 2 ^ s + t + 2 ^ s = (2 * b + 1) * 2 ^ s + t from by ring,
          passesW_dft W h1 h2 hm kk a s hss (2 * b) t hb0 hts,
          passesW_dft W h1 h2 hm kk a s hss (2 * b + 1) t hbound hts,
          hbr0, hbr1,
          show Finset.range (2 ^ (s + 1)) = Finset.range (2 * 2 ^ s) from by rw [hle],
          sum_range_even_odd]
        congr 1
        · apply Finset.sum_congr rfl
          intro j _
          rw [show 2 * j * 2 ^ (kk - (s + 1)) + bitRev (kk - (s + 1)) b =
              j * 2 ^ (kk - s) + bitRev (kk - (s + 1)) b from by rw [hkk1, pow_succ]; ring,
            show W (2 ^ (s + 1)) ^ (2 * j * t) = W (2 ^ s) ^ (j * t) from by
              rw [show 2 * j * t = 2 * (j * t) from by ring, pow_mul, hker2]]
        · rw [Finset.mul_sum]
          apply Finset.sum_congr rfl
          intro j _
          rw [show (2 * j + 1) * 2 ^ (kk - (s + 1)) + bitRev (kk - (s + 1)) b =
              j * 2 ^ (kk - s) + (bitRev (kk - (s + 1)) b + 2 ^ (kk - (s + 1))) from by
            rw [hkk1, pow_succ]; ring,
            show W (2 ^ (s + 1)) ^ ((2 * j + 1) * t) =
                W (2 ^ s) ^ (j * t) * W (2 ^ (s + 1)) ^ t from by
              rw [show (2 * j + 1) * t = 2 * (j * t) + t from by ring, pow_add, pow_mul,
                hker2]]
          ring
      · obtain ⟨c, rfl⟩ : ∃ c, t = 2 ^ s + c := ⟨t - 2 ^ s, by omega⟩
        have hc : c < 2 ^ s := by
          rw [hle] at ht
          omega
        rw [if_neg (by omega), show 2 ^ s + c - 2 ^ s = c by omega,
          show b * 2 ^ (s + 1) + (2 ^ s + c) - 2 ^ s = 2 * b * 2 ^ s + c from by
            rw [show b * 2 ^ (s + 1) + (2 ^ s + c) = 2 * b * 2 ^ s + c + 2 ^ s from by
              rw [pow_succ]; ring, Nat.add_sub_cancel],
          show b * 2 ^ (s + 1) + (2 ^ s + c) = (2 * b + 1) * 2 ^ s + c from by
            rw [pow_succ]; ring,
          passesW_dft W h1 h2 hm kk a s hss (2 * b) c hb0 hc,
          passesW_dft W h1 h2 hm kk a s hss (2 * b + 1) c hbound hc,
          hbr0, hbr1,
          show Finset.range (2 ^ (s + 1)) = Finset.range (2 * 2 ^ s) from by rw [hle],
          sum_range_even_odd]
        have hevens : (∑ j in Finset.range (2 ^ s),
            a (2 * j * 2 ^ (kk - (s + 1)) + bitRev (kk - (s + 1)) b) *
              W (2 ^ (s + 1)) ^ (2 * j * (2 ^ s + c))) =
            ∑ j in Finset.range (2 ^ s),
              a (j * 2 ^ (kk - s) + bitRev (kk - (s + 1)) b) * W (2 ^ s) ^ (j * c) := by
          apply Finset.sum_congr rfl
          intro j _
          rw [show 2 * j * 2 ^ (kk - (s + 1)) + bitRev (kk - (s + 1)) b =
              j * 2 ^ (kk - s) + bitRev (kk - (s + 1)) b from by rw [hkk1, pow_succ]; ring,
            show W (2 ^ (s + 1)) ^ (2 * j * (2 ^ s + c)) = W (2 ^ s) ^ (j * c) from by
              rw [show 2 * j * (2 ^ s + c) = 2 * (2 ^ s * j + j * c) from by ring, pow_mul,
                hker2, pow_add, pow_mul, hWpow, one_pow, one_mul]]
        have hodds : (∑ j in Finset.range (2 ^ s),
            a ((2 * j + 1) * 2 ^ (kk - (s + 1)) + bitRev (kk - (s + 1)) b) *
              W (2 ^ (s + 1)) ^ ((2 * j + 1) * (2 ^ s + c))) =
            -(W (2 ^ (s + 1)) ^ c * ∑ j in Finset.range (2 ^ s),
              a (j * 2 ^ (kk - s) + (bitRev (kk - (s + 1)) b + 2 ^ (kk - (s + 1)))) *
                W (2 ^ s) ^ (j * c)) := by
          rw [Finset.mul_sum, ← Finset.sum_neg_distrib]
          apply Finset.sum_congr rfl
          intro j _
          rw [show (2 * j + 1) * 2 ^ (kk - (s + 1)) + bitRev (kk - (s + 1)) b =
              j * 2 ^ (kk - s) + (bitRev (kk - (s + 1)) b + 2 ^ (kk - (s + 1))) from by
            rw [hkk1, pow_succ]; ring,
            show W (2 ^ (s + 1)) ^ ((2 * j + 1) * (2 ^ s + c)) =
                -(W (2 ^ s) ^ (j * c) * W (2 ^ (s + 1)) ^ c) from by
              rw [show (2 * j + 1) * (2 ^ s + c) = 2 * (2 ^ s * j + j * c) + (2 ^ s + c) from
                by ring, pow_add, pow_mul, hker2, pow_add, pow_mul, hWpow, one_pow, one_mul,
                pow_add, hkerm]
              ring]
          ring
        rw [hevens, hodds]
        ring

/-- The iterative FFT with `inverse = false` computes the discrete
Fourier transform with the conjugated (positive-sign) kernel. -/
theorem fftIter_false_eq (bits : ℕ) (a : ℕ → ℂ) {i : ℕ} (hi : i < 2 ^ bits) :
    fftIter bits false a i =
      ∑ j in Finset.range (2 ^ bits), a j * wpos (2 ^ bits) ^ (j * i) := by
  have hfam : wIter false = wpos := funext wIter_false
  have key := passesW_dft wpos wpos_one (fun m hm2 => wpos_two_mul_sq hm2)
    (fun m hm2 => wpos_two_mul_pow_self hm2) bits a bits le_rfl 0 i
    (by rw [Nat.sub_self]; norm_num) hi
  rw [Nat.sub_self, Nat.zero_mul, Nat.zero_add] at key
  rw [fftIter, if_neg (by norm_num), hfam, key]
  apply Finset.sum_congr rfl
  intro j _
  rw [show bitRev 0 0 = 0 from rfl, pow_zero, Nat.add_zero, Nat.mul_one]

/-- Evaluation of a unit-modulus exponential into its components. -/
theorem exp_real_mul_I_eval (t : ℝ) :
    Complex.exp ((t : ℂ) * Complex.I) = ⟨Real.cos t, Real.sin t⟩ := by
  rw [← mul_one (Complex.exp ((t : ℂ) * Complex.I)), ← rot_eq_exp_mul]
  apply Complex.ext <;> simp [rot]

theorem wneg_four : wneg 4 = -Complex.I := by
  have hθ : (-(2 * Real.pi / ((4 : ℕ) : ℝ)) : ℝ) = -(Real.pi / 2) := by
    norm_num
    ring
  rw [wneg, hθ, exp_real_mul_I_eval]
  apply Complex.ext <;>
    simp [Real.cos_pi_div_two, Real.sin_pi_div_two]

theorem wpos_four : wpos 4 = Complex.I := by
  rw [← conj_wneg, wneg_four]
  simp

/-- Claim C3 counterexample: at the input `[0, 1, 0, 0]` of length
`4 = 2^2`, entry 1 of the recursive fft is `-I` while entry 1 of the
iterative fft with `inverse = false` is `I`: the two FFTs do not
produce equal outputs (they use opposite twiddle-sign conventions). -/
theorem fft_variants_differ :
    (fftL [0, 1, 0, 0]).map (fun r => r.getD 1 0) = some (-Complex.I) ∧
      fftIter 2 false (fun j => ([0, 1, 0, 0] : List ℂ).getD j 0) 1 = Complex.I ∧
      (-Complex.I : ℂ) ≠ Complex.I := by
  refine ⟨?_, ?_, by norm_num [Complex.ext_iff]⟩
  · rw [fftL_eq_dft 2 [0, 1, 0, 0] (by norm_num), Option.map_some']
    congr 1
    rw [dft_getD _ (by norm_num)]
    rw [show ([0, 1, 0, 0] : List ℂ).length = 4 from by norm_num]
    rw [Finset.sum_range_succ, Finset.sum_range_succ, Finset.sum_range_succ,
      Finset.sum_range_one]
    norm_num [List.getD]
    exact wneg_four
  · rw [fftIter_false_eq 2 _ (by norm_num)]
    rw [show (2 : ℕ) ^ 2 = 4 from by norm_num]
    rw [Finset.sum_range_succ, Finset.sum_range_succ, Finset.sum_range_succ,
      Finset.sum_range_one]
    norm_num [List.getD]
    exact wpos_four

/-- Claim C3 amended: the recursive fft and the iterative fft with
`inverse = false` compute conjugate transforms of each other — on
every power-of-two-length input and every index, the iterative forward
output equals the conjugate of the recursive fft applied to the
conjugated input (equivalently, the recursive fft uses the kernel
`e^(-2πi·jk/n)` and the iterative forward fft the kernel
`e^(+2πi·jk/n)`); they are not equal as stated. -/
theorem fftIter_conj_fftL (k : ℕ) (l : List ℂ) (hl : l.length = 2 ^ k)
    {i : ℕ} (hi : i < 2 ^ k) :
    (fftL (l.map fun z => (starRingEnd ℂ) z)).map
        (fun r => (starRingEnd ℂ) (r.getD i 0)) =
      some (fftIter k false (fun j => l.getD j 0) i) := by
  rw [fftL_eq_dft k _ (by rw [List.length_map, hl]), Option.map_some']
  congr 1
  rw [fftIter_false_eq k _ hi,
    dft_getD _ (by rw [List.length_map, hl]; exact hi), List.length_map, hl, map_sum]
  apply Finset.sum_congr rfl
  intro j _
  rw [map_mul, getD_map_conj, Complex.conj_conj, map_pow, conj_wneg]

/-- Witness for the amended C3 at the one-element input `[1]`. -/
theorem fftIter_conj_fftL_witness :
    ([(1 : ℂ)].length = 2 ^ 0) ∧ ((0 : ℕ) < 2 ^ 0) ∧
      (fftL ([(1 : ℂ)].map fun z => (starRingEnd ℂ) z)).map
          (fun r => (starRingEnd ℂ) (r.getD 0 0)) =
        some (fftIter 0 false (fun j => ([(1 : ℂ)] : List ℂ).getD j 0) 0) :=
  ⟨by norm_num, by norm_num, fftIter_conj_fftL 0 [(1 : ℂ)] (by norm_num) (by norm_num)⟩

end QWS
